import Mathlib

/-
Verification of the FEN-placement bitboard extraction program
(`src/util/board.py` of JLErvin/purple).

The script reads a FEN string, builds a `chess.Board`, extracts the twelve
per-piece/per-color square sets, unions them into white/black/all occupancy
sets (source lines 22-24), and converts every square set to an integer with
`bb_to_int` (source lines 26-31), which renders `str(SquareSet)`, replaces
'.' by '0', strips spaces and newlines, and parses the result in base 2.

The FEN placement parser itself lives in the third-party `python-chess`
library, not in the repository; it is modelled here from the specification
(section 4.1 and section 7).  The `SquareSet` string rendering used by
`bb_to_int` is likewise library behaviour: `str` prints the 8x8 grid one
rank per line starting with the rank written first in the FEN (squares
a8 b8 ... h8 / a7 ... / ... / a1 ... h1), '1' for occupied, '.' for empty,
files separated by a blank, ranks by a newline, with no trailing newline.
Both renderings are embedded explicitly below.

Square indexing: the canonical convention of the specification (section 3)
is `index = rank*8 + file` where rank 0 is the rank written last in the
placement field and file 0 is the 'a' file.  The parser model stores piece
occupancy in exactly that indexing, which is also the library's `SquareSet`
mask convention (a1 = 0, h1 = 7, a8 = 56, h8 = 63).
-/

namespace Purple

/-- The twelve piece/color kinds, uppercase letters white, lowercase black. -/
inductive Piece where
  | wP | wN | wB | wR | wQ | wK
  | bP | bN | bB | bR | bQ | bK
deriving DecidableEq, Fintype

/-- Color predicate on the twelve piece kinds. -/
def isWhitePiece : Piece → Bool
  | .wP | .wN | .wB | .wR | .wQ | .wK => true
  | .bP | .bN | .bB | .bR | .bQ | .bK => false

/-- Letter used for a piece in the placement field. -/
def pieceChar : Piece → Char
  | .wP => 'P' | .wN => 'N' | .wB => 'B' | .wR => 'R' | .wQ => 'Q' | .wK => 'K'
  | .bP => 'p' | .bN => 'n' | .bB => 'b' | .bR => 'r' | .bQ => 'q' | .bK => 'k'

/-- Recognize a piece letter; `none` for every other character. -/
def charPiece (c : Char) : Option Piece :=
  match c with
  | 'P' => some .wP | 'N' => some .wN | 'B' => some .wB
  | 'R' => some .wR | 'Q' => some .wQ | 'K' => some .wK
  | 'p' => some .bP | 'n' => some .bN | 'b' => some .bB
  | 'r' => some .bR | 'q' => some .bQ | 'k' => some .bK
  | _ => none

/-- The twelve occupancy masks, named as the script's variables. -/
structure Bitboards where
  WP : Nat
  WR : Nat
  WN : Nat
  WB : Nat
  WK : Nat
  WQ : Nat
  BP : Nat
  BR : Nat
  BN : Nat
  BB : Nat
  BK : Nat
  BQ : Nat
deriving DecidableEq

/-- Select the mask of one piece kind. -/
def Bitboards.get (bbs : Bitboards) : Piece → Nat
  | .wP => bbs.WP | .wN => bbs.WN | .wB => bbs.WB
  | .wR => bbs.WR | .wQ => bbs.WQ | .wK => bbs.WK
  | .bP => bbs.BP | .bN => bbs.BN | .bB => bbs.BB
  | .bR => bbs.BR | .bQ => bbs.BQ | .bK => bbs.BK

/-- Set bit `sq` in the mask selected by `p`. -/
def setBit (bbs : Bitboards) (p : Piece) (sq : Nat) : Bitboards :=
  match p with
  | .wP => { bbs with WP := bbs.WP ||| 2 ^ sq }
  | .wN => { bbs with WN := bbs.WN ||| 2 ^ sq }
  | .wB => { bbs with WB := bbs.WB ||| 2 ^ sq }
  | .wR => { bbs with WR := bbs.WR ||| 2 ^ sq }
  | .wQ => { bbs with WQ := bbs.WQ ||| 2 ^ sq }
  | .wK => { bbs with WK := bbs.WK ||| 2 ^ sq }
  | .bP => { bbs with BP := bbs.BP ||| 2 ^ sq }
  | .bN => { bbs with BN := bbs.BN ||| 2 ^ sq }
  | .bB => { bbs with BB := bbs.BB ||| 2 ^ sq }
  | .bR => { bbs with BR := bbs.BR ||| 2 ^ sq }
  | .bK => { bbs with BK := bbs.BK ||| 2 ^ sq }
  | .bQ => { bbs with BQ := bbs.BQ ||| 2 ^ sq }

/-- All twelve masks empty: the parser state before any bit is set. -/
def emptyBoards : Bitboards := ⟨0, 0, 0, 0, 0, 0, 0, 0, 0, 0, 0, 0⟩

/-- Digit character '1'..'8'. -/
def isDigit18 (c : Char) : Bool :=
  decide (49 ≤ c.toNat ∧ c.toNat ≤ 56)

/-- Numeric value of a digit character. -/
def digitVal (c : Char) : Nat := c.toNat - 48

/-- Typed placement-format failures, following the taxonomy of the
specification (section 7). -/
inductive ParseError where
  | structural (ranks : Nat)
  | rankLength (rank : Nat)
  | unrecognizedSymbol (c : Char)
deriving DecidableEq

/-- Modelled from the spec: expansion of a single rank segment of the
placement field (section 4.1), missing from the repository because the
script delegates FEN decoding to the `chess` library.  `r` is the rank
index (0 = rank written last), `file` the running file counter.  A digit
advances the counter, a recognized letter sets bit `r*8 + file` of the
matching bitboard and advances the counter by one; a counter passing 8
mid-rank or unequal to 8 at rank end is a rank-length error, any other
character an unrecognized-symbol error. -/
def parseRank (r : Nat) : List Char → Nat → Bitboards → Except ParseError Bitboards
  | [], file, bbs =>
    if file = 8 then .ok bbs else .error (.rankLength r)
  | c :: rest, file, bbs =>
    if isDigit18 c then
      if 8 < file + digitVal c then .error (.rankLength r)
      else parseRank r rest (file + digitVal c) bbs
    else
      match charPiece c with
      | some p =>
        if 8 ≤ file then .error (.rankLength r)
        else parseRank r rest (file + 1) (setBit bbs p (8 * r + file))
      | none => .error (.unrecognizedSymbol c)

/-- Modelled from the spec: process the rank segments in field order,
rank index decreasing from 7 to 0 (section 4.1). -/
def parseRanks : List (List Char) → Nat → Bitboards → Except ParseError Bitboards
  | [], _, bbs => .ok bbs
  | seg :: rest, r, bbs =>
    match parseRank r seg 0 bbs with
    | .ok bbs' => parseRanks rest (r - 1) bbs'
    | .error e => .error e

/-- Split a character list on '/' separators. -/
def splitSlash : List Char → List (List Char)
  | [] => [[]]
  | c :: rest =>
    if c = '/' then [] :: splitSlash rest
    else
      match splitSlash rest with
      | seg :: segs => (c :: seg) :: segs
      | [] => [[c]]

/-- Modelled from the spec: the FEN placement parser (sections 4.1 and 7),
missing from the repository because the script delegates it to
`chess.Board`.  The field must split on '/' into exactly eight rank
segments, processed with rank index 7 down to 0; on any failure no
bitboards are produced. -/
def parsePlacement (s : List Char) : Except ParseError Bitboards :=
  let segs := splitSlash s
  if segs.length = 8 then parseRanks segs 7 emptyBoards
  else .error (.structural segs.length)

/-- Source line 22: `white=WP|WR|WN|WB|WK|WQ`. -/
def white (b : Bitboards) : Nat :=
  b.WP ||| b.WR ||| b.WN ||| b.WB ||| b.WK ||| b.WQ

/-- Source line 23: `black=BP|BR|BN|BB|BK|BQ`. -/
def black (b : Bitboards) : Nat :=
  b.BP ||| b.BR ||| b.BN ||| b.BB ||| b.BK ||| b.BQ

/-- Source line 24: `all=white|black`. -/
def allPieces (b : Bitboards) : Nat := white b ||| black b

/-- Vertical mirror of a square index, as python-chess `square_mirror`. -/
def squareMirror (s : Nat) : Nat := s ^^^ 56

/-- The square order of `str(SquareSet)`: a8 b8 ... h8 a7 ... h1
(python-chess `SQUARES_180`). -/
def squares180 : List Nat := (List.range 64).map squareMirror

/-- Rendering of python-chess `SquareSet.__str__` on mask `m`: '1' for an
occupied square, '.' for an empty one, ' ' between files, '\n' between
ranks (after every file-h square except h1). -/
def squareSetStr (m : Nat) : List Char :=
  (squares180.map (fun sq =>
    (if m.testBit sq then '1' else '.') ::
      (if sq % 8 = 7 then (if sq = 7 then [] else ['\n']) else [' ']))).flatten

/-- Source line 28: `s.replace(".", "0")`. -/
def replaceDots (s : List Char) : List Char :=
  s.map (fun c => if c = '.' then '0' else c)

/-- Source lines 29-30: `s.replace(" ", "")` and `s.replace("\n", "")`. -/
def stripWs (s : List Char) : List Char :=
  s.filter (fun c => !(c = ' ' || c = '\n'))

/-- Source line 31: Python `int(s, 2)` on a string of binary digits. -/
def intBase2 (s : List Char) : Nat :=
  s.foldl (fun a c => 2 * a + (c.toNat - 48)) 0

/-- Source lines 26-31: the script's `bb_to_int`, applied to the 64-bit
mask underlying the square set. -/
def bb_to_int (m : Nat) : Nat :=
  intBase2 (stripWs (replaceDots (squareSetStr m)))

/-- The fifteen integers the program derives: the twelve printed piece
bitboards plus the three occupancy unions. -/
structure Outputs where
  whitePawns : Nat
  whiteRooks : Nat
  whiteKnights : Nat
  whiteBishops : Nat
  whiteKing : Nat
  whiteQueen : Nat
  blackPawns : Nat
  blackRooks : Nat
  blackKnights : Nat
  blackBishops : Nat
  blackKing : Nat
  blackQueen : Nat
  whiteOccupancy : Nat
  blackOccupancy : Nat
  allOccupancy : Nat
deriving DecidableEq

/-- Convert the parsed square sets to the program's integer outputs. -/
def outputs (b : Bitboards) : Outputs where
  whitePawns := bb_to_int b.WP
  whiteRooks := bb_to_int b.WR
  whiteKnights := bb_to_int b.WN
  whiteBishops := bb_to_int b.WB
  whiteKing := bb_to_int b.WK
  whiteQueen := bb_to_int b.WQ
  blackPawns := bb_to_int b.BP
  blackRooks := bb_to_int b.BR
  blackKnights := bb_to_int b.BN
  blackBishops := bb_to_int b.BB
  blackKing := bb_to_int b.BK
  blackQueen := bb_to_int b.BQ
  whiteOccupancy := bb_to_int (white b)
  blackOccupancy := bb_to_int (black b)
  allOccupancy := bb_to_int (allPieces b)

/-- The whole pipeline on the placement field, parser then conversion. -/
def run (s : String) : Except ParseError Outputs :=
  (parsePlacement s.toList).map outputs

/-- Population count of a natural number's binary representation. -/
def popcount (n : Nat) : Nat :=
  if h : n = 0 then 0 else n % 2 + popcount (n / 2)
decreasing_by exact Nat.div_lt_self (Nat.pos_of_ne_zero h) Nat.one_lt_two

/-- Characters of the placement alphabet: digits and piece letters. -/
def recognized (c : Char) : Bool :=
  isDigit18 c || (charPiece c).isSome

/-- Number of squares one character expands to. -/
def width (c : Char) : Nat :=
  if isDigit18 c then digitVal c else 1

/-- A syntactically valid rank segment: recognized characters expanding to
exactly eight squares. -/
def validSeg (seg : List Char) : Bool :=
  seg.all recognized && decide ((seg.map width).sum = 8)

/-- A syntactically valid placement field: exactly eight rank segments,
each valid. -/
def validField (s : List Char) : Bool :=
  decide ((splitSlash s).length = 8) && (splitSlash s).all validSeg

instance {ε α : Type} [DecidableEq ε] [DecidableEq α] : DecidableEq (Except ε α) := fun x y =>
  match x, y with
  | .ok a, .ok b =>
    if h : a = b then isTrue (h ▸ rfl) else isFalse (fun hh => h (Except.ok.inj hh))
  | .error e, .error f =>
    if h : e = f then isTrue (h ▸ rfl) else isFalse (fun hh => h (Except.error.inj hh))
  | .ok _, .error _ => isFalse (fun hh => Except.noConfusion hh)
  | .error _, .ok _ => isFalse (fun hh => Except.noConfusion hh)

/-- The standard starting-position placement field. -/
def startField : String := "rnbqkbnr/pppppppp/8/8/8/8/PPPPPPPP/RNBQKBNR"

/-- The parse result of the starting position, in canonical square
indexing (a1 = 0, ..., h8 = 63). -/
def startBoards : Bitboards where
  WP := 65280
  WR := 129
  WN := 66
  WB := 36
  WK := 16
  WQ := 8
  BP := 71776119061217280
  BR := 9295429630892703744
  BN := 4755801206503243776
  BB := 2594073385365405696
  BK := 1152921504606846976
  BQ := 576460752303423488

/-- Little-endian value of a list of bits. -/
def ofBitsLE : List Bool → Nat
  | [] => 0
  | b :: bs => cond b 1 0 + 2 * ofBitsLE bs

/-- Squares already processed when the parser stands at rank `r`, file
counter `f`: every earlier rank in field order (larger index) entirely,
and the files already consumed on rank `r`. -/
def InRegion (r f j : Nat) : Prop :=
  j < 64 ∧ (8 * r + 8 ≤ j ∨ (8 * r ≤ j ∧ j < 8 * r + f))

/-- All bits set so far lie in the processed region. -/
def Inv (bbs : Bitboards) (r f : Nat) : Prop :=
  ∀ p j, (bbs.get p).testBit j = true → InRegion r f j

/-- No square is claimed by two different piece kinds. -/
def Disj (bbs : Bitboards) : Prop :=
  ∀ p q, p ≠ q → ∀ j,
    ¬((bbs.get p).testBit j = true ∧ (bbs.get q).testBit j = true)

/-- All set bits lie in `[n, 64)`. -/
def LowInv (bbs : Bitboards) (n : Nat) : Prop :=
  ∀ p j, (bbs.get p).testBit j = true → n ≤ j ∧ j < 64

lemma ofBitsLE_lt : ∀ l : List Bool, ofBitsLE l < 2 ^ l.length
  | [] => by simp [ofBitsLE]
  | b :: bs => by
    have ih := ofBitsLE_lt bs
    simp only [ofBitsLE, List.length_cons, pow_succ]
    cases b <;> simp <;> omega

lemma testBit_ofBitsLE : ∀ (l : List Bool) (j : Nat),
    (ofBitsLE l).testBit j = l.getD j false
  | [], j => by simp [ofBitsLE]
  | b :: bs, 0 => by
    cases b <;> simp [ofBitsLE, Nat.testBit_zero] <;> omega
  | b :: bs, j + 1 => by
    have ih := testBit_ofBitsLE bs j
    have h2 : ofBitsLE (b :: bs) / 2 = ofBitsLE bs := by
      cases b <;> simp [ofBitsLE] <;> omega
    rw [Nat.testBit_succ, h2, ih]
    simp

lemma intBase2_append (l : List Char) (c : Char) :
    intBase2 (l ++ [c]) = 2 * intBase2 l + (c.toNat - 48) := by
  simp [intBase2, List.foldl_append]

lemma intBase2_eq_ofBitsLE (l : List Char) (h : ∀ c ∈ l, c = '0' ∨ c = '1') :
    intBase2 l = ofBitsLE ((l.map (fun c => c == '1')).reverse) := by
  have h0 : ('0' : Char).toNat = 48 := rfl
  have h1 : ('1' : Char).toNat = 49 := rfl
  induction l using List.reverseRecOn with
  | nil => rfl
  | append_singleton l c ih =>
    have hc : c = '0' ∨ c = '1' := h c (by simp)
    have hl : ∀ c ∈ l, c = '0' ∨ c = '1' := fun c hc => h c (by simp [hc])
    rw [intBase2_append, ih hl, List.map_append, List.reverse_append]
    rcases hc with hc | hc <;> subst hc <;>
      simp [ofBitsLE, h0, h1] <;> omega

lemma beq_one_of_bit (b : Bool) : ((if b then '1' else '0') == '1') = b := by
  cases b <;> rfl

lemma stripWs_replaceDots_aux (m : Nat) : ∀ L : List Nat,
    stripWs (replaceDots ((L.map (fun sq =>
      (if m.testBit sq then '1' else '.') ::
        (if sq % 8 = 7 then (if sq = 7 then [] else ['\n']) else [' ']))).flatten)) =
    L.map (fun sq => if m.testBit sq then '1' else '0')
  | [] => rfl
  | sq :: L => by
    have ih := stripWs_replaceDots_aux m L
    simp only [List.map_cons, List.flatten_cons]
    cases h : m.testBit sq <;> by_cases h8 : sq % 8 = 7 <;> by_cases h7 : sq = 7 <;>
      simp_all [stripWs, replaceDots]

lemma bb_to_int_eq_ofBitsLE (m : Nat) :
    bb_to_int m = ofBitsLE ((squares180.map (fun sq => m.testBit sq)).reverse) := by
  have hfun : ((fun c => c == '1') ∘ fun sq => if m.testBit sq = true then '1' else '0')
      = fun sq => m.testBit sq := by
    funext sq
    simpa [Function.comp] using beq_one_of_bit (m.testBit sq)
  rw [bb_to_int, squareSetStr, stripWs_replaceDots_aux m squares180,
    intBase2_eq_ofBitsLE, List.map_map, hfun]
  intro c hc
  simp only [List.mem_map] at hc
  obtain ⟨sq, _, rfl⟩ := hc
  cases m.testBit sq <;> simp

lemma squares180_length : squares180.length = 64 := by
  simp [squares180]

/-- The conversion keeps every value inside 64 bits. -/
lemma bb_to_int_lt (m : Nat) : bb_to_int m < 2 ^ 64 := by
  have h := ofBitsLE_lt ((squares180.map (fun sq => m.testBit sq)).reverse)
  rw [bb_to_int_eq_ofBitsLE]
  simpa [squares180_length] using h

/-- Master lemma: bit `j` of the printed integer is bit `(63-j) XOR 56` of
the square-set mask; written with rank and file, square `8*r + f` of the
mask lands at bit `8*r + (7-f)` of the integer (files mirrored). -/
lemma testBit_bb_to_int (m j : Nat) :
    (bb_to_int m).testBit j = (decide (j < 64) && m.testBit ((63 - j) ^^^ 56)) := by
  rw [bb_to_int_eq_ofBitsLE, testBit_ofBitsLE]
  by_cases hj : j < 64
  · have hlen : j < (squares180.map (fun sq => m.testBit sq)).reverse.length := by
      simp [squares180_length]; omega
    rw [List.getD_eq_getElem?_getD, List.getElem?_eq_getElem hlen]
    simp only [List.getElem_reverse, List.getElem_map, Option.getD_some]
    have : squares180.length - 1 - j = 63 - j := by
      simp [squares180_length]
    simp only [List.length_map, this]
    have h63 : 63 - j < 64 := by omega
    simp [squares180, squareMirror, hj]
  · have hlen : (squares180.map (fun sq => m.testBit sq)).reverse.length ≤ j := by
      simp [squares180_length]; omega
    rw [List.getD_eq_getElem?_getD, List.getElem?_eq_none (by simpa using hlen)]
    simp [hj]

lemma popcount_zero : popcount 0 = 0 := by
  rw [popcount]
  simp

lemma popcount_pos {n : Nat} (h : n ≠ 0) : popcount n = n % 2 + popcount (n / 2) := by
  rw [popcount]
  simp [h]

lemma popcount_two_mul_add {c : Nat} (n : Nat) (hc : c ≤ 1) :
    popcount (c + 2 * n) = c + popcount n := by
  by_cases h : c + 2 * n = 0
  · have hc0 : c = 0 := by omega
    have hn0 : n = 0 := by omega
    subst hc0; subst hn0
    simp [popcount_zero]
  · rw [popcount_pos h]
    have h1 : (c + 2 * n) % 2 = c := by omega
    have h2 : (c + 2 * n) / 2 = n := by omega
    rw [h1, h2]

lemma popcount_ofBitsLE : ∀ l : List Bool, popcount (ofBitsLE l) = l.count true
  | [] => by simp [ofBitsLE, popcount_zero]
  | b :: bs => by
    have ih := popcount_ofBitsLE bs
    rw [ofBitsLE, popcount_two_mul_add _ (by cases b <;> simp), ih, List.count_cons]
    cases b <;> simp <;> omega

lemma ofBitsLE_toBits : ∀ (k : Nat) (m : Nat), m < 2 ^ k →
    ofBitsLE ((List.range k).map (fun i => m.testBit i)) = m
  | 0, m, h => by
    have : m = 0 := by omega
    simp [this, ofBitsLE]
  | k + 1, m, h => by
    have hdiv : m / 2 < 2 ^ k := by
      rw [pow_succ] at h
      omega
    have ih := ofBitsLE_toBits k (m / 2) hdiv
    rw [List.range_succ_eq_map, List.map_cons, List.map_map]
    have hfun : ((fun i => m.testBit i) ∘ Nat.succ) = fun i => (m / 2).testBit i := by
      funext i
      exact Nat.testBit_succ m i
    rw [hfun, ofBitsLE, ih]
    have hbit : cond (m.testBit 0) 1 0 = m % 2 := by
      rw [Nat.testBit_zero]
      rcases Nat.mod_two_eq_zero_or_one m with h2 | h2 <;> simp [h2]
    omega

/-- Evaluation form of `popcount` on a 64-bit value. -/
lemma popcount_count64 {m : Nat} (h : m < 2 ^ 64) :
    popcount m = ((List.range 64).map (fun i => m.testBit i)).count true := by
  conv_lhs => rw [← ofBitsLE_toBits 64 m h]
  rw [popcount_ofBitsLE]

lemma popcount_eq_sum : ∀ (k : Nat) (m : Nat), m < 2 ^ k →
    popcount m = ∑ i ∈ Finset.range k, (if m.testBit i then 1 else 0)
  | 0, m, h => by
    have : m = 0 := by omega
    simp [this, popcount_zero]
  | k + 1, m, h => by
    by_cases hm : m = 0
    · simp [hm, popcount_zero, Nat.zero_testBit]
    · have hdiv : m / 2 < 2 ^ k := by
        rw [pow_succ] at h
        omega
      have ih := popcount_eq_sum k (m / 2) hdiv
      rw [popcount_pos hm, ih, Finset.sum_range_succ']
      have hstep : ∀ i, (if m.testBit (i + 1) then (1 : Nat) else 0)
          = if (m / 2).testBit i then 1 else 0 := by
        intro i
        rw [Nat.testBit_succ]
      have hbit : (if m.testBit 0 then (1 : Nat) else 0) = m % 2 := by
        rw [Nat.testBit_zero]
        rcases Nat.mod_two_eq_zero_or_one m with h2 | h2 <;> simp [h2]
      simp only [hstep, hbit]
      omega

lemma lt_two_pow_of_testBit_lt : ∀ (k : Nat) (m : Nat),
    (∀ i, m.testBit i = true → i < k) → m < 2 ^ k
  | 0, m, h => by
    have hm : m = 0 := by
      apply Nat.eq_of_testBit_eq
      intro i
      rw [Nat.zero_testBit]
      cases hb : m.testBit i
      · rfl
      · exact absurd (h i hb) (by omega)
    simp [hm]
  | k + 1, m, h => by
    have ih := lt_two_pow_of_testBit_lt k (m / 2) (fun i hi => by
      have := h (i + 1) (by rw [Nat.testBit_succ]; exact hi)
      omega)
    have hsplit : m = 2 * (m / 2) + m % 2 := by omega
    rw [pow_succ]
    omega

lemma popcount_or_disjoint {a b : Nat} (k : Nat) (ha : a < 2 ^ k) (hb : b < 2 ^ k)
    (h : ∀ i, ¬(a.testBit i = true ∧ b.testBit i = true)) :
    popcount (a ||| b) = popcount a + popcount b := by
  have hab : a ||| b < 2 ^ k := Nat.or_lt_two_pow ha hb
  rw [popcount_eq_sum k _ hab, popcount_eq_sum k a ha, popcount_eq_sum k b hb,
    ← Finset.sum_add_distrib]
  apply Finset.sum_congr rfl
  intro i _
  have hi := h i
  rw [Nat.testBit_or]
  cases ha' : a.testBit i <;> cases hb' : b.testBit i <;> simp_all

lemma mirror_lt : ∀ j, j < 64 → (63 - j) ^^^ 56 < 64 := by decide

lemma mirror_invol : ∀ j, j < 64 → (63 - ((63 - j) ^^^ 56)) ^^^ 56 = j := by decide

/-- The conversion permutes the low 64 bits, so it preserves popcount. -/
lemma popcount_bb_to_int {m : Nat} (hm : m < 2 ^ 64) :
    popcount (bb_to_int m) = popcount m := by
  rw [popcount_eq_sum 64 _ (bb_to_int_lt m), popcount_eq_sum 64 m hm]
  have hcongr : ∀ j ∈ Finset.range 64,
      (if (bb_to_int m).testBit j then (1 : Nat) else 0)
        = if m.testBit ((63 - j) ^^^ 56) then 1 else 0 := by
    intro j hj
    rw [Finset.mem_range] at hj
    rw [testBit_bb_to_int]
    simp [hj]
  rw [Finset.sum_congr rfl hcongr]
  refine Finset.sum_nbij' (fun j => (63 - j) ^^^ 56) (fun j => (63 - j) ^^^ 56)
    ?_ ?_ ?_ ?_ ?_
  · intro a ha
    rw [Finset.mem_range] at ha ⊢
    exact mirror_lt a ha
  · intro a ha
    rw [Finset.mem_range] at ha ⊢
    exact mirror_lt a ha
  · intro a ha
    rw [Finset.mem_range] at ha
    exact mirror_invol a ha
  · intro a ha
    rw [Finset.mem_range] at ha
    exact mirror_invol a ha
  · intro a _
    rfl

/-- Disjointness of masks transports through the conversion. -/
lemma bb_to_int_and_eq_zero {a b : Nat} (h : a &&& b = 0) :
    bb_to_int a &&& bb_to_int b = 0 := by
  apply Nat.eq_of_testBit_eq
  intro i
  rw [Nat.testBit_and, Nat.zero_testBit, testBit_bb_to_int, testBit_bb_to_int]
  cases hd : decide (i < 64)
  · simp
  · simp only [Bool.true_and]
    cases ha : a.testBit ((63 - i) ^^^ 56)
    · simp
    · cases hb : b.testBit ((63 - i) ^^^ 56)
      · simp
      · exfalso
        have : (a &&& b).testBit ((63 - i) ^^^ 56) = true := by
          rw [Nat.testBit_and, ha, hb]
          rfl
        rw [h, Nat.zero_testBit] at this
        exact Bool.noConfusion this

/-- The conversion distributes over bitwise OR (set union of square sets). -/
lemma bb_to_int_or (a b : Nat) :
    bb_to_int (a ||| b) = bb_to_int a ||| bb_to_int b := by
  apply Nat.eq_of_testBit_eq
  intro i
  rw [Nat.testBit_or, testBit_bb_to_int, testBit_bb_to_int, testBit_bb_to_int,
    Nat.testBit_or]
  cases decide (i < 64) <;>
    cases a.testBit ((63 - i) ^^^ 56) <;>
    cases b.testBit ((63 - i) ^^^ 56) <;> rfl

lemma popcount_two_pow : ∀ n : Nat, popcount (2 ^ n) = 1
  | 0 => by
    rw [pow_zero, popcount_pos one_ne_zero]
    simp [popcount_zero]
  | n + 1 => by
    have ih := popcount_two_pow n
    have h : (2 : Nat) ^ (n + 1) = 0 + 2 * 2 ^ n := by ring
    rw [h, popcount_two_mul_add _ (by omega), ih]

lemma two_pow_lt {sq : Nat} (h : sq < 64) : 2 ^ sq < 2 ^ 64 :=
  Nat.pow_lt_pow_right (by omega) h

lemma popcount_or_two_pow {m sq : Nat} (hm : m < 2 ^ 64) (hsq : sq < 64)
    (hfresh : m.testBit sq = false) :
    popcount (m ||| 2 ^ sq) = popcount m + 1 := by
  rw [popcount_or_disjoint 64 hm (two_pow_lt hsq) ?_, popcount_two_pow]
  intro i hi
  obtain ⟨h1, h2⟩ := hi
  rw [Nat.testBit_two_pow] at h2
  have : sq = i := of_decide_eq_true h2
  subst this
  rw [hfresh] at h1
  exact Bool.noConfusion h1

lemma and_eq_zero_of_ptwise {a b : Nat}
    (h : ∀ j, ¬(a.testBit j = true ∧ b.testBit j = true)) : a &&& b = 0 := by
  apply Nat.eq_of_testBit_eq
  intro j
  rw [Nat.testBit_and, Nat.zero_testBit]
  cases ha : a.testBit j <;> cases hb : b.testBit j <;> simp_all

lemma get_setBit (bbs : Bitboards) (p : Piece) (sq : Nat) (q : Piece) :
    (setBit bbs p sq).get q
      = if q = p then bbs.get q ||| 2 ^ sq else bbs.get q := by
  cases p <;> cases q <;> simp [setBit, Bitboards.get]

lemma get_empty (p : Piece) : emptyBoards.get p = 0 := by
  cases p <;> rfl

lemma inv_mono {bbs : Bitboards} {r f f' : Nat} (h : f ≤ f')
    (hinv : Inv bbs r f) : Inv bbs r f' := by
  intro p j hb
  have hr := hinv p j hb
  unfold InRegion at hr ⊢
  omega

lemma fresh_of_inv {bbs : Bitboards} {r f : Nat} (hf : f < 8)
    (hinv : Inv bbs r f) (p : Piece) :
    (bbs.get p).testBit (8 * r + f) = false := by
  cases hb : (bbs.get p).testBit (8 * r + f)
  · rfl
  · have hr := hinv p _ hb
    unfold InRegion at hr
    omega

lemma get_lt_of_inv {bbs : Bitboards} {r f : Nat} (hinv : Inv bbs r f)
    (p : Piece) : bbs.get p < 2 ^ 64 := by
  apply lt_two_pow_of_testBit_lt
  intro i hi
  exact (hinv p i hi).1

lemma pieceChar_ne_slash : ∀ p : Piece, pieceChar p ≠ '/' := by decide

lemma isDigit18_pieceChar : ∀ p : Piece, isDigit18 (pieceChar p) = false := by decide

lemma charPiece_pieceChar : ∀ p : Piece, charPiece (pieceChar p) = some p := by decide

lemma charPiece_eq_some {c : Char} {p : Piece} (h : charPiece c = some p) :
    c = pieceChar p := by
  unfold charPiece at h
  split at h
  all_goals first
    | exact Option.noConfusion h
    | (injection h with h2; subst h2; rfl)

/-- One rank of the parser: a successful rank run keeps every invariant,
ends with file counter 8, and adds to each bitboard exactly as many fresh
bits as its letter occurs in the segment. -/
lemma parseRank_spec : ∀ (seg : List Char) (r f : Nat) (bbs bbs' : Bitboards),
    parseRank r seg f bbs = .ok bbs' → r ≤ 7 → f ≤ 8 →
    Inv bbs r f → Disj bbs →
    Inv bbs' r 8 ∧ Disj bbs' ∧
      ∀ p, popcount (bbs'.get p)
        = popcount (bbs.get p) + seg.count (pieceChar p)
  | [], r, f, bbs, bbs', hok, hr, hf, hinv, hdisj => by
    by_cases h8 : f = 8
    · subst h8
      simp only [parseRank, if_pos rfl] at hok
      injection hok with hok
      subst hok
      exact ⟨hinv, hdisj, fun p => by simp⟩
    · simp [parseRank, h8] at hok
  | c :: rest, r, f, bbs, bbs', hok, hr, hf, hinv, hdisj => by
    simp only [parseRank] at hok
    by_cases hdig : isDigit18 c = true
    · rw [if_pos hdig] at hok
      by_cases hover : 8 < f + digitVal c
      · rw [if_pos hover] at hok
        exact Except.noConfusion hok
      · rw [if_neg hover] at hok
        have ih := parseRank_spec rest r (f + digitVal c) bbs bbs' hok hr
          (by omega) (inv_mono (by omega) hinv) hdisj
        refine ⟨ih.1, ih.2.1, fun p => ?_⟩
        rw [ih.2.2 p, List.count_cons]
        have hne : (c == pieceChar p) = false := by
          rw [beq_eq_false_iff_ne]
          intro hc
          rw [hc, isDigit18_pieceChar p] at hdig
          exact Bool.noConfusion hdig
        rw [hne]
        simp
    · rw [if_neg hdig] at hok
      cases hcp : charPiece c with
      | none =>
        simp only [hcp] at hok
        exact Except.noConfusion hok
      | some p₀ =>
        simp only [hcp] at hok
        by_cases hge : 8 ≤ f
        · rw [if_pos hge] at hok
          exact Except.noConfusion hok
        · rw [if_neg hge] at hok
          have hflt : f < 8 := by omega
          have hsq : 8 * r + f < 64 := by omega
          have hfresh : ∀ p, (bbs.get p).testBit (8 * r + f) = false :=
            fresh_of_inv hflt hinv
          have hinv2 : Inv (setBit bbs p₀ (8 * r + f)) r (f + 1) := by
            intro p j hb
            rw [get_setBit] at hb
            by_cases hp : p = p₀
            · rw [if_pos hp, Nat.testBit_or, Bool.or_eq_true] at hb
              rcases hb with hb | hb
              · have hreg := hinv p j hb
                unfold InRegion at hreg ⊢
                omega
              · rw [Nat.testBit_two_pow] at hb
                have hj : 8 * r + f = j := of_decide_eq_true hb
                unfold InRegion
                omega
            · rw [if_neg hp] at hb
              have hreg := hinv p j hb
              unfold InRegion at hreg ⊢
              omega
          have hdisj2 : Disj (setBit bbs p₀ (8 * r + f)) := by
            intro p q hpq j hj
            obtain ⟨h1, h2⟩ := hj
            rw [get_setBit] at h1
            rw [get_setBit] at h2
            by_cases hp : p = p₀ <;> by_cases hq : q = p₀
            · exact hpq (hp.trans hq.symm)
            · rw [if_pos hp] at h1
              rw [if_neg hq] at h2
              rw [Nat.testBit_or, Bool.or_eq_true] at h1
              rcases h1 with h1 | h1
              · exact hdisj p q hpq j ⟨h1, h2⟩
              · rw [Nat.testBit_two_pow] at h1
                have hj' : 8 * r + f = j := of_decide_eq_true h1
                rw [← hj', hfresh q] at h2
                exact Bool.noConfusion h2
            · rw [if_neg hp] at h1
              rw [if_pos hq] at h2
              rw [Nat.testBit_or, Bool.or_eq_true] at h2
              rcases h2 with h2 | h2
              · exact hdisj p q hpq j ⟨h1, h2⟩
              · rw [Nat.testBit_two_pow] at h2
                have hj' : 8 * r + f = j := of_decide_eq_true h2
                rw [← hj', hfresh p] at h1
                exact Bool.noConfusion h1
            · rw [if_neg hp] at h1
              rw [if_neg hq] at h2
              exact hdisj p q hpq j ⟨h1, h2⟩
          have hcount2 : ∀ p, popcount ((setBit bbs p₀ (8 * r + f)).get p)
              = popcount (bbs.get p) + (if p = p₀ then 1 else 0) := by
            intro p
            rw [get_setBit]
            by_cases hp : p = p₀
            · rw [if_pos hp, if_pos hp,
                popcount_or_two_pow (get_lt_of_inv hinv p) hsq (hfresh p)]
            · rw [if_neg hp, if_neg hp]
              simp
          have ih := parseRank_spec rest r (f + 1) _ bbs' hok hr (by omega)
            hinv2 hdisj2
          refine ⟨ih.1, ih.2.1, fun p => ?_⟩
          rw [ih.2.2 p, hcount2 p, List.count_cons]
          have hcEq : c = pieceChar p₀ := charPiece_eq_some hcp
          have hiff : (c == pieceChar p) = (if p = p₀ then true else false) := by
            by_cases hp : p = p₀
            · rw [if_pos hp, hp, ← hcEq]
              simp
            · rw [if_neg hp, beq_eq_false_iff_ne]
              intro hc
              have hcc := charPiece_pieceChar p
              rw [← hc, hcp] at hcc
              injection hcc with hcc
              exact hp hcc.symm
          rw [hiff]
          by_cases hp : p = p₀ <;> simp [hp] <;> omega

lemma lowInv_to_inv {bbs : Bitboards} {r : Nat} (h : LowInv bbs (8 * (r + 1))) :
    Inv bbs r 0 := by
  intro p j hb
  have hj := h p j hb
  unfold InRegion
  omega

lemma inv_to_lowInv {bbs : Bitboards} {r : Nat} (h : Inv bbs r 8) :
    LowInv bbs (8 * r) := by
  intro p j hb
  have hj := h p j hb
  unfold InRegion at hj
  omega

/-- The rank loop: processing the segments with rank index descending from
`r` keeps the invariants and accumulates the per-segment letter counts. -/
lemma parseRanks_spec : ∀ (segs : List (List Char)) (r : Nat) (bbs bbs' : Bitboards),
    parseRanks segs r bbs = .ok bbs' → r ≤ 7 → segs.length ≤ r + 1 →
    LowInv bbs (8 * (r + 1)) → Disj bbs →
    LowInv bbs' (8 * (r + 1) - 8 * segs.length) ∧ Disj bbs' ∧
      ∀ p, popcount (bbs'.get p) = popcount (bbs.get p)
        + (segs.map (fun seg => seg.count (pieceChar p))).sum
  | [], r, bbs, bbs', hok, hr, hlen, hlow, hdisj => by
    simp only [parseRanks] at hok
    injection hok with hok
    subst hok
    refine ⟨?_, hdisj, fun p => by simp⟩
    intro p j hb
    have hj := hlow p j hb
    simp only [List.length_nil]
    omega
  | seg :: rest, r, bbs, bbs', hok, hr, hlen, hlow, hdisj => by
    simp only [parseRanks] at hok
    cases hpr : parseRank r seg 0 bbs with
    | error e =>
      simp only [hpr] at hok
      exact Except.noConfusion hok
    | ok bbs₂ =>
      simp only [hpr] at hok
      have hspec := parseRank_spec seg r 0 bbs bbs₂ hpr hr (by omega)
        (lowInv_to_inv hlow) hdisj
      have hlow₂ : LowInv bbs₂ (8 * r) := inv_to_lowInv hspec.1
      cases r with
      | zero =>
        have hrest : rest = [] := by
          cases rest with
          | nil => rfl
          | cons a t => simp at hlen
        subst hrest
        simp only [parseRanks] at hok
        injection hok with hok
        subst hok
        refine ⟨?_, hspec.2.1, fun p => ?_⟩
        · intro p j hb
          have hj := hlow₂ p j hb
          simp only [List.length_cons, List.length_nil]
          omega
        · rw [hspec.2.2 p]
          simp
      | succ r' =>
        have hok' : parseRanks rest r' bbs₂ = .ok bbs' := by
          simpa using hok
        have hlen' : rest.length ≤ r' + 1 := by
          simp only [List.length_cons] at hlen
          omega
        have ih := parseRanks_spec rest r' bbs₂ bbs' hok' (by omega) hlen'
          hlow₂ hspec.2.1
        have harith : 8 * (r' + 1 + 1) - 8 * (seg :: rest).length
            = 8 * (r' + 1) - 8 * rest.length := by
          simp only [List.length_cons]
          omega
        rw [harith]
        refine ⟨ih.1, ih.2.1, fun p => ?_⟩
        rw [ih.2.2 p, hspec.2.2 p, List.map_cons, List.sum_cons]
        omega

lemma splitSlash_ne_nil : ∀ l : List Char, splitSlash l ≠ []
  | [] => by simp [splitSlash]
  | c :: rest => by
    simp only [splitSlash]
    by_cases h : c = '/'
    · simp [h]
    · simp only [if_neg h]
      cases splitSlash rest <;> simp

lemma count_splitSlash (c : Char) (hc : c ≠ '/') : ∀ l : List Char,
    ((splitSlash l).map (fun seg => seg.count c)).sum = l.count c
  | [] => by simp [splitSlash]
  | a :: rest => by
    have ih := count_splitSlash c hc rest
    by_cases ha : a = '/'
    · subst ha
      have hcc : ('/' == c) = false := by
        rw [beq_eq_false_iff_ne]
        exact fun h => hc h.symm
      simp only [splitSlash, if_pos rfl, List.map_cons, List.sum_cons,
        List.count_cons, hcc, ih]
      simp [ih]
    · simp only [splitSlash, if_neg ha]
      cases hsp : splitSlash rest with
      | nil => exact absurd hsp (splitSlash_ne_nil rest)
      | cons seg segs =>
        rw [hsp] at ih
        simp only [List.map_cons, List.sum_cons, List.count_cons] at ih ⊢
        omega

/-- A successful parse yields masks whose bits lie below 64, that are
pairwise square-disjoint, and whose popcounts equal the letter counts of
the field. -/
lemma parsePlacement_spec (s : List Char) (bbs : Bitboards)
    (hok : parsePlacement s = .ok bbs) :
    (∀ p j, (bbs.get p).testBit j = true → j < 64) ∧ Disj bbs ∧
      ∀ p, popcount (bbs.get p) = s.count (pieceChar p) := by
  unfold parsePlacement at hok
  by_cases hlen : (splitSlash s).length = 8
  · rw [if_pos hlen] at hok
    have hlow : LowInv emptyBoards (8 * (7 + 1)) := by
      intro p j hb
      rw [get_empty, Nat.zero_testBit] at hb
      exact Bool.noConfusion hb
    have hdisj : Disj emptyBoards := by
      intro p q hpq j hj
      rw [get_empty, Nat.zero_testBit] at hj
      exact Bool.noConfusion hj.1
    have hspec := parseRanks_spec (splitSlash s) 7 emptyBoards bbs hok
      (by omega) (by omega) hlow hdisj
    refine ⟨fun p j hb => (hspec.1 p j hb).2, hspec.2.1, fun p => ?_⟩
    rw [hspec.2.2 p, get_empty, popcount_zero,
      count_splitSlash (pieceChar p) (pieceChar_ne_slash p) s]
    omega
  · rw [if_neg hlen] at hok
    exact Except.noConfusion hok

lemma parseRank_ok_valid : ∀ (seg : List Char) (r f : Nat) (bbs bbs' : Bitboards),
    parseRank r seg f bbs = .ok bbs' →
    seg.all recognized = true ∧ f + (seg.map width).sum = 8
  | [], r, f, bbs, bbs', hok => by
    by_cases h8 : f = 8
    · subst h8
      exact ⟨rfl, by simp⟩
    · simp [parseRank, h8] at hok
  | c :: rest, r, f, bbs, bbs', hok => by
    simp only [parseRank] at hok
    by_cases hdig : isDigit18 c = true
    · rw [if_pos hdig] at hok
      by_cases hover : 8 < f + digitVal c
      · rw [if_pos hover] at hok
        exact Except.noConfusion hok
      · rw [if_neg hover] at hok
        have ih := parseRank_ok_valid rest r (f + digitVal c) bbs bbs' hok
        refine ⟨?_, ?_⟩
        · simp [List.all_cons, recognized, hdig, ih.1]
        · have hsum := ih.2
          simp only [List.map_cons, List.sum_cons, width, if_pos hdig]
          omega
    · rw [if_neg hdig] at hok
      cases hcp : charPiece c with
      | none =>
        simp only [hcp] at hok
        exact Except.noConfusion hok
      | some p₀ =>
        simp only [hcp] at hok
        by_cases hge : 8 ≤ f
        · rw [if_pos hge] at hok
          exact Except.noConfusion hok
        · rw [if_neg hge] at hok
          have ih := parseRank_ok_valid rest r (f + 1) _ bbs' hok
          refine ⟨?_, ?_⟩
          · have hrc : recognized c = true := by
              simp [recognized, hcp]
            simp [List.all_cons, hrc, ih.1]
          · have hw : width c = 1 := by
              simp [width, hdig]
            have hsum := ih.2
            simp only [List.map_cons, List.sum_cons, hw]
            omega

lemma parseRanks_ok_valid : ∀ (segs : List (List Char)) (r : Nat) (bbs bbs' : Bitboards),
    parseRanks segs r bbs = .ok bbs' → ∀ seg ∈ segs, validSeg seg = true
  | [], _, _, _ => by
    intro _ s hs
    simp at hs
  | seg :: rest, r, bbs, bbs' => by
    intro hok s hs
    simp only [parseRanks] at hok
    cases hpr : parseRank r seg 0 bbs with
    | error e =>
      simp only [hpr] at hok
      exact Except.noConfusion hok
    | ok bbs₂ =>
      simp only [hpr] at hok
      rcases List.mem_cons.mp hs with hs | hs
      · subst hs
        have hv := parseRank_ok_valid s r 0 bbs bbs₂ hpr
        unfold validSeg
        rw [Bool.and_eq_true, hv.1]
        refine ⟨rfl, ?_⟩
        rw [decide_eq_true_eq]
        have hsum := hv.2
        omega
      · exact parseRanks_ok_valid rest (r - 1) bbs₂ bbs' hok s hs

/-- A successful parse certifies the field syntactically valid. -/
lemma parsePlacement_ok_valid (s : List Char) (bbs : Bitboards)
    (hok : parsePlacement s = .ok bbs) : validField s = true := by
  unfold parsePlacement at hok
  by_cases hlen : (splitSlash s).length = 8
  · rw [if_pos hlen] at hok
    unfold validField
    rw [Bool.and_eq_true]
    refine ⟨by rw [decide_eq_true_eq]; exact hlen, ?_⟩
    rw [List.all_eq_true]
    intro seg hseg
    exact parseRanks_ok_valid _ 7 _ _ hok seg hseg
  · rw [if_neg hlen] at hok
    exact Except.noConfusion hok

lemma white_bit {b : Bitboards} {j : Nat} (h : (white b).testBit j = true) :
    ∃ p : Piece, isWhitePiece p = true ∧ (b.get p).testBit j = true := by
  simp only [white, Nat.testBit_or, Bool.or_eq_true] at h
  rcases h with ((((h | h) | h) | h) | h) | h
  · exact ⟨.wP, rfl, h⟩
  · exact ⟨.wR, rfl, h⟩
  · exact ⟨.wN, rfl, h⟩
  · exact ⟨.wB, rfl, h⟩
  · exact ⟨.wK, rfl, h⟩
  · exact ⟨.wQ, rfl, h⟩

lemma black_bit {b : Bitboards} {j : Nat} (h : (black b).testBit j = true) :
    ∃ p : Piece, isWhitePiece p = false ∧ (b.get p).testBit j = true := by
  simp only [black, Nat.testBit_or, Bool.or_eq_true] at h
  rcases h with ((((h | h) | h) | h) | h) | h
  · exact ⟨.bP, rfl, h⟩
  · exact ⟨.bR, rfl, h⟩
  · exact ⟨.bN, rfl, h⟩
  · exact ⟨.bB, rfl, h⟩
  · exact ⟨.bK, rfl, h⟩
  · exact ⟨.bQ, rfl, h⟩

lemma white_lt {bbs : Bitboards} (hlt : ∀ p j, (bbs.get p).testBit j = true → j < 64) :
    white bbs < 2 ^ 64 := by
  apply lt_two_pow_of_testBit_lt
  intro i hi
  obtain ⟨p, _, hp⟩ := white_bit hi
  exact hlt p i hp

lemma black_lt {bbs : Bitboards} (hlt : ∀ p j, (bbs.get p).testBit j = true → j < 64) :
    black bbs < 2 ^ 64 := by
  apply lt_two_pow_of_testBit_lt
  intro i hi
  obtain ⟨p, _, hp⟩ := black_bit hi
  exact hlt p i hp

lemma white_black_ptwise {bbs : Bitboards} (hdisj : Disj bbs) :
    ∀ j, ¬((white bbs).testBit j = true ∧ (black bbs).testBit j = true) := by
  intro j hj
  obtain ⟨h1, h2⟩ := hj
  obtain ⟨p, hpw, hp⟩ := white_bit h1
  obtain ⟨q, hqw, hq⟩ := black_bit h2
  have hpq : p ≠ q := fun he => by
    rw [he, hqw] at hpw
    exact Bool.noConfusion hpw
  exact hdisj p q hpq j ⟨hp, hq⟩

lemma mirror_arith : ∀ r, r < 8 → ∀ f, f < 8 →
    (63 - (8 * r + (7 - f))) ^^^ 56 = 8 * r + f := by decide

/-- Claim C1, counterexample: the claim states that a piece written at rank
`r`, file `f` (rank 0 = rank written last, file 0 = 'a') sets bit `r*8 + f`
of the output integer.  On the starting field the white king is written at
rank 0, file 4 (square e1, bit 4 of the parsed mask), yet bit 4 of the
program's white-king integer is clear (the integer is 8, i.e. bit 3): the
string-based conversion does not follow the canonical bit ordering. -/
theorem claim1_counterexample :
    parsePlacement startField.toList = .ok startBoards ∧
    (startBoards.get .wK).testBit (8 * 0 + 4) = true ∧
    (bb_to_int (startBoards.get .wK)).testBit (8 * 0 + 4) = false := by
  refine ⟨by decide, by decide, by decide⟩

/-- Claim C1, amended: for every successfully parsed placement field, a
piece written at rank `r` and file `f` (rank 0 the rank written last,
file 0 the 'a' file) sets exactly bit `r*8 + (7 - f)` of the corresponding
output integer — the program's conversion mirrors the files within each
rank relative to the canonical `r*8 + f` ordering. -/
theorem claim1_amended (s : List Char) (bbs : Bitboards)
    (h : parsePlacement s = .ok bbs) (p : Piece) (r f : Nat)
    (hr : r < 8) (hf : f < 8) :
    (bb_to_int (bbs.get p)).testBit (8 * r + (7 - f))
      = (bbs.get p).testBit (8 * r + f) := by
  rw [testBit_bb_to_int]
  have h1 : 8 * r + (7 - f) < 64 := by omega
  have h2 : (63 - (8 * r + (7 - f))) ^^^ 56 = 8 * r + f := mirror_arith r hr f hf
  rw [h2]
  simp [h1]

/-- Witness for the amended claim C1 at the starting position's white
king: output bit `0*8 + (7-4) = 3` agrees with mask bit `0*8 + 4`, which
is set. -/
theorem claim1_amended_witness :
    ((bb_to_int (startBoards.get .wK)).testBit (8 * 0 + (7 - 4))
        = (startBoards.get .wK).testBit (8 * 0 + 4))
      ∧ (startBoards.get .wK).testBit (8 * 0 + 4) = true :=
  ⟨claim1_amended startField.toList startBoards (by decide) .wK 0 4
      (by decide) (by decide),
    by decide⟩

/-- Claim C2, counterexample: on the starting field the program's
white-king integer is 8, whose bit `0*8 + 4` (file 'e', White's back rank,
canonical ordering) is clear — the king-bit conjunct of the claim fails. -/
theorem claim2_counterexample :
    run startField = .ok (outputs startBoards) ∧
    (outputs startBoards).whiteKing = 8 ∧
    (outputs startBoards).whiteKing.testBit (8 * 0 + 4) = false := by
  refine ⟨by decide, by decide, by decide⟩

/-- Claim C2, amended: on the starting field the popcounts of the white
pawn, black pawn and all-occupancy outputs are 8, 8 and 32, and the
white-king output has its bit set at index `0*8 + (7-4) = 3`, the
file-mirrored image of square e1 under the program's conversion. -/
theorem claim2_amended :
    run startField = .ok (outputs startBoards) ∧
    popcount (outputs startBoards).whitePawns = 8 ∧
    popcount (outputs startBoards).blackPawns = 8 ∧
    popcount (outputs startBoards).allOccupancy = 32 ∧
    (outputs startBoards).whiteKing.testBit (8 * 0 + (7 - 4)) = true := by
  refine ⟨by decide, ?_, ?_, ?_, by decide⟩
  · rw [popcount_count64 (by decide : (outputs startBoards).whitePawns < 2 ^ 64)]
    decide
  · rw [popcount_count64 (by decide : (outputs startBoards).blackPawns < 2 ^ 64)]
    decide
  · rw [popcount_count64 (by decide : (outputs startBoards).allOccupancy < 2 ^ 64)]
    decide

/-- Claim C3: for every successfully parsed placement field the twelve
output bitboards are pairwise disjoint (bitwise AND of distinct outputs is
zero) and each output's population count equals the number of occurrences
of its letter in the field. -/
theorem claim3 (s : List Char) (bbs : Bitboards)
    (h : parsePlacement s = .ok bbs) :
    (∀ p q : Piece, p ≠ q →
      bb_to_int (bbs.get p) &&& bb_to_int (bbs.get q) = 0) ∧
    (∀ p : Piece, popcount (bb_to_int (bbs.get p)) = s.count (pieceChar p)) := by
  obtain ⟨hlt, hdisj, hcount⟩ := parsePlacement_spec s bbs h
  constructor
  · intro p q hpq
    apply bb_to_int_and_eq_zero
    apply and_eq_zero_of_ptwise
    exact hdisj p q hpq
  · intro p
    rw [popcount_bb_to_int (lt_two_pow_of_testBit_lt 64 _ (hlt p)), hcount p]

/-- Witness for claim C3 at the starting position: the white and black
pawn outputs are disjoint and the white pawn output has popcount equal to
the number of 'P' letters in the field. -/
theorem claim3_witness :
    bb_to_int (startBoards.get .wP) &&& bb_to_int (startBoards.get .bP) = 0 ∧
    popcount (bb_to_int (startBoards.get .wP))
      = startField.toList.count (pieceChar .wP) := by
  have h := claim3 startField.toList startBoards (by decide)
  exact ⟨h.1 .wP .bP (by decide), h.2 .wP⟩

/-- Claim C4: for every successfully parsed placement field the
all-occupancy output equals the bitwise OR of the white and black
occupancy outputs, and its popcount is the sum of their popcounts. -/
theorem claim4 (s : List Char) (bbs : Bitboards)
    (h : parsePlacement s = .ok bbs) :
    bb_to_int (allPieces bbs)
        = bb_to_int (white bbs) ||| bb_to_int (black bbs) ∧
    popcount (bb_to_int (allPieces bbs))
      = popcount (bb_to_int (white bbs)) + popcount (bb_to_int (black bbs)) := by
  obtain ⟨hlt, hdisj, -⟩ := parsePlacement_spec s bbs h
  have hwlt := white_lt hlt
  have hblt := black_lt hlt
  have hptw := white_black_ptwise hdisj
  unfold allPieces
  have halt : white bbs ||| black bbs < 2 ^ 64 := Nat.or_lt_two_pow hwlt hblt
  constructor
  · exact bb_to_int_or (white bbs) (black bbs)
  · rw [popcount_bb_to_int halt, popcount_bb_to_int hwlt, popcount_bb_to_int hblt]
    exact popcount_or_disjoint 64 hwlt hblt hptw

/-- Witness for claim C4 at the starting position. -/
theorem claim4_witness :
    bb_to_int (allPieces startBoards)
        = bb_to_int (white startBoards) ||| bb_to_int (black startBoards) ∧
    popcount (bb_to_int (allPieces startBoards))
      = popcount (bb_to_int (white startBoards))
        + popcount (bb_to_int (black startBoards)) :=
  claim4 startField.toList startBoards (by decide)

/-- Claim C5: every malformed field — wrong number of rank segments, a
segment not expanding to exactly eight squares, or an unrecognized
character — is rejected with a typed placement-format error, and no
bitboards are produced. -/
theorem claim5 (s : List Char) (hbad : validField s = false) :
    (∃ e, parsePlacement s = .error e) ∧
      ∀ bbs, ¬ parsePlacement s = .ok bbs := by
  have hnot : ∀ bbs, ¬ parsePlacement s = .ok bbs := by
    intro bbs hok
    rw [parsePlacement_ok_valid s bbs hok] at hbad
    exact Bool.noConfusion hbad
  refine ⟨?_, hnot⟩
  cases hp : parsePlacement s with
  | error e => exact ⟨e, rfl⟩
  | ok bbs => exact absurd hp (hnot bbs)

/-- Witness for claim C5 on the malformed field "8/8/8/8/8/8/8/7X". -/
theorem claim5_witness :
    ∃ e, parsePlacement ("8/8/8/8/8/8/8/7X").toList = .error e :=
  (claim5 ("8/8/8/8/8/8/8/7X").toList (by decide)).1

/-- Claim C6: the input "8/8/8/8/8/8/8/7", whose last rank expands to only
seven squares, is rejected with a rank-length error (for rank index 0, the
rank written last) and produces no bitboards. -/
theorem claim6 :
    parsePlacement ("8/8/8/8/8/8/8/7").toList
      = .error (.rankLength 0) := by decide

/-- Claim C7: the empty-board field yields all twelve bitboards equal to 0
and all three occupancy unions equal to 0. -/
theorem claim7 :
    run ("8/8/8/8/8/8/8/8")
      = .ok ⟨0, 0, 0, 0, 0, 0, 0, 0, 0, 0, 0, 0, 0, 0, 0⟩ := by decide

/-- Claim C8: the pipeline is deterministic — equal input strings produce
identical results.  (It is also pure by construction: `run` is a function
of the input string alone, with no other state.) -/
theorem claim8 (s t : String) (h : s = t) : run s = run t := by
  rw [h]

/-- Witness for claim C8 at the starting field. -/
theorem claim8_witness : run startField = run startField :=
  claim8 startField startField rfl

/-- Claim C9: on every successful run all fifteen produced integers (the
twelve piece bitboards and the three occupancy unions) are below `2^64`. -/
theorem claim9 (s : String) (outs : Outputs) (h : run s = .ok outs) :
    outs.whitePawns < 2 ^ 64 ∧ outs.whiteRooks < 2 ^ 64 ∧
    outs.whiteKnights < 2 ^ 64 ∧ outs.whiteBishops < 2 ^ 64 ∧
    outs.whiteKing < 2 ^ 64 ∧ outs.whiteQueen < 2 ^ 64 ∧
    outs.blackPawns < 2 ^ 64 ∧ outs.blackRooks < 2 ^ 64 ∧
    outs.blackKnights < 2 ^ 64 ∧ outs.blackBishops < 2 ^ 64 ∧
    outs.blackKing < 2 ^ 64 ∧ outs.blackQueen < 2 ^ 64 ∧
    outs.whiteOccupancy < 2 ^ 64 ∧ outs.blackOccupancy < 2 ^ 64 ∧
    outs.allOccupancy < 2 ^ 64 := by
  unfold run at h
  cases hp : parsePlacement s.toList with
  | error e =>
    rw [hp] at h
    exact Except.noConfusion h
  | ok bbs =>
    rw [hp] at h
    simp only [Except.map] at h
    injection h with h
    subst h
    exact ⟨bb_to_int_lt _, bb_to_int_lt _, bb_to_int_lt _, bb_to_int_lt _,
      bb_to_int_lt _, bb_to_int_lt _, bb_to_int_lt _, bb_to_int_lt _,
      bb_to_int_lt _, bb_to_int_lt _, bb_to_int_lt _, bb_to_int_lt _,
      bb_to_int_lt _, bb_to_int_lt _, bb_to_int_lt _⟩

/-- Witness for claim C9 at the starting field. -/
theorem claim9_witness :
    (outputs startBoards).whitePawns < 2 ^ 64 ∧
    (outputs startBoards).whiteRooks < 2 ^ 64 ∧
    (outputs startBoards).whiteKnights < 2 ^ 64 ∧
    (outputs startBoards).whiteBishops < 2 ^ 64 ∧
    (outputs startBoards).whiteKing < 2 ^ 64 ∧
    (outputs startBoards).whiteQueen < 2 ^ 64 ∧
    (outputs startBoards).blackPawns < 2 ^ 64 ∧
    (outputs startBoards).blackRooks < 2 ^ 64 ∧
    (outputs startBoards).blackKnights < 2 ^ 64 ∧
    (outputs startBoards).blackBishops < 2 ^ 64 ∧
    (outputs startBoards).blackKing < 2 ^ 64 ∧
    (outputs startBoards).blackQueen < 2 ^ 64 ∧
    (outputs startBoards).whiteOccupancy < 2 ^ 64 ∧
    (outputs startBoards).blackOccupancy < 2 ^ 64 ∧
    (outputs startBoards).allOccupancy < 2 ^ 64 :=
  claim9 startField (outputs startBoards) (by decide)

/-- Claim C10: the conversion distributes over square-set union — for all
64-bit masks `a`, `b`, `bb_to_int (a ||| b) = bb_to_int a ||| bb_to_int b`
— and consequently converting the unioned all-occupancy board yields the
same integer as OR-ing the twelve converted piece integers. -/
theorem claim10 :
    (∀ a b : Nat, a < 2 ^ 64 → b < 2 ^ 64 →
      bb_to_int (a ||| b) = bb_to_int a ||| bb_to_int b) ∧
    (∀ (s : List Char) (bbs : Bitboards), parsePlacement s = .ok bbs →
      bb_to_int (allPieces bbs)
        = bb_to_int bbs.WP ||| bb_to_int bbs.WR ||| bb_to_int bbs.WN
            ||| bb_to_int bbs.WB ||| bb_to_int bbs.WK ||| bb_to_int bbs.WQ
          ||| (bb_to_int bbs.BP ||| bb_to_int bbs.BR ||| bb_to_int bbs.BN
            ||| bb_to_int bbs.BB ||| bb_to_int bbs.BK ||| bb_to_int bbs.BQ)) := by
  constructor
  · intro a b _ _
    exact bb_to_int_or a b
  · intro s bbs _
    unfold allPieces white black
    simp only [bb_to_int_or]

/-- Witness for claim C10: concrete union distribution and the twelve-way
union at the starting position. -/
theorem claim10_witness :
    bb_to_int (1 ||| 2) = bb_to_int 1 ||| bb_to_int 2 ∧
    bb_to_int (allPieces startBoards)
      = bb_to_int startBoards.WP ||| bb_to_int startBoards.WR
          ||| bb_to_int startBoards.WN ||| bb_to_int startBoards.WB
          ||| bb_to_int startBoards.WK ||| bb_to_int startBoards.WQ
        ||| (bb_to_int startBoards.BP ||| bb_to_int startBoards.BR
          ||| bb_to_int startBoards.BN ||| bb_to_int startBoards.BB
          ||| bb_to_int startBoards.BK ||| bb_to_int startBoards.BQ) :=
  ⟨claim10.1 1 2 (by decide) (by decide),
    claim10.2 startField.toList startBoards (by decide)⟩

end Purple
